import Mathlib

/-!
# Verification of the sensybull-10k-pipeline core components

Shallow embedding of the pipeline's pure logic, translated from the Python
sources:

* `edgar/parser.py`   — `FilingParser.extract_sections`, `validate_sections`
* `edgar/client.py`   — `EDGARClient._rate_limited_get`, rate-limit pacing,
                        `get_filing_document_url` (structured-index stage),
                        `_extract_annual_values`
* `edgar/watcher.py`  — `FilingWatcher.poll_once`
* `analysis/groq_client.py` — `GroqAnalyzer._parse_json_response`,
                        `analyze_section`

Text is modelled as `List Char` (`Str`), matching Python's code-point string
indexing.  Regular-expression engines and the stdlib JSON parser are external
library code; where a claim depends only on how their *results* are used, they
are abstracted as function parameters (match-position lists, an abstract
`loads`), and where a claim depends on the concrete pattern (the watcher's
accession/CIK patterns, the brace/fence scans) the pattern is embedded
directly.
-/

namespace Sensybull

/-- Text as a list of code points, matching Python string indexing. -/
abbrev Str := List Char

/-! ## Python string primitives -/

/-- Python `s.strip()`: remove leading and trailing whitespace. -/
def pyStrip (s : Str) : Str :=
  ((s.dropWhile Char.isWhitespace).reverse.dropWhile Char.isWhitespace).reverse

/-- Python `s[a:b]` for `0 ≤ a ≤ b` (the only shape used by the sources). -/
def pySlice (s : Str) (a b : Nat) : Str :=
  (s.drop a).take (b - a)

/-- Python `s.lower()` (ASCII-relevant part). -/
def pyLower (s : Str) : Str := s.map Char.toLower

/-- Helper for `pyWordCount`: count maximal non-whitespace runs;
the flag records whether we are currently inside a word. -/
def countWordsAux : Str → Bool → Nat
  | [], _ => 0
  | c :: rest, inWord =>
    if c.isWhitespace then countWordsAux rest false
    else (if inWord then 0 else 1) + countWordsAux rest true

/-- Python `len(s.split())`: number of whitespace-separated words. -/
def pyWordCount (s : Str) : Nat := countWordsAux s false

/-- Python `needle in hay` (substring containment). -/
def strContains (hay needle : Str) : Bool :=
  (List.range (hay.length + 1)).any (fun i => needle.isPrefixOf (hay.drop i))

/-! ## Python `list.sort(key=...)`: stable sorts by a key

Python's `list.sort` is stable.  `sortByAsc` models `sort(key=k)` and
`sortByDesc` models `sort(key=k, reverse=True)`; both are insertion sorts that
keep earlier elements in front of later elements with an equal key. -/

/-- Insert `x` (which came later in the original list) into an
ascending-by-key list, after every element with key `≤ k x`. -/
def insertByLe {α β : Type} [LinearOrder β] (k : α → β) (x : α) : List α → List α
  | [] => [x]
  | y :: ys => if k y ≤ k x then y :: insertByLe k x ys else x :: y :: ys

/-- Stable ascending sort by key (Python `sort(key=k)`). -/
def sortByAsc {α β : Type} [LinearOrder β] (k : α → β) (l : List α) : List α :=
  l.foldl (fun acc x => insertByLe k x acc) []

/-- Insert `x` (which came later in the original list) into a
descending-by-key list, after every element with key `≥ k x`. -/
def insertByGe {α β : Type} [LinearOrder β] (k : α → β) (x : α) : List α → List α
  | [] => [x]
  | y :: ys => if k x ≤ k y then y :: insertByGe k x ys else x :: y :: ys

/-- Stable descending sort by key (Python `sort(key=k, reverse=True)`). -/
def sortByDesc {α β : Type} [LinearOrder β] (k : α → β) (l : List α) : List α :=
  l.foldl (fun acc x => insertByGe k x acc) []

/-! ## `edgar/parser.py` -/

/-- The keys of `SECTION_PATTERNS` in dict insertion order (parser.py 12-33). -/
def SECTION_PATTERN_NAMES : List Str :=
  ["business".data, "risk_factors".data, "mda".data,
   "market_risk".data, "financials".data]

/-- The regex engine, abstracted: `finditer name text` is the ascending list of
start positions of the (non-overlapping) matches of the section pattern
registered under `name` in `SECTION_PATTERNS`, exactly as produced by
`pattern.finditer(text)` in parser.py line 89. -/
structure PatternTable where
  finditer : Str → Str → List Nat

/-- parser.py 86-98: for each pattern, the start position of the *last*
match (`matches[-1].start()`), in `SECTION_PATTERNS` insertion order;
patterns with no match are absent. -/
def section_positions (pt : PatternTable) (text : Str) : List (Str × Nat) :=
  SECTION_PATTERN_NAMES.filterMap
    (fun name => ((pt.finditer name text).getLast?).map (fun p => (name, p)))

/-- parser.py 108-119: slice the text between consecutive sorted section
positions; the final section runs to `min(start + 50000, len(text))`; each
slice is `.strip()`-ed before being stored. -/
def slice_sections (text : Str) : List (Str × Nat) → List (Str × Str)
  | [] => []
  | (name, start) :: rest =>
    let stop := match rest with
      | (_, next) :: _ => next
      | [] => min (start + 50000) text.length
    (name, pyStrip (pySlice text start stop)) :: slice_sections text rest

/-- parser.py 79-121, `FilingParser.extract_sections`. -/
def extract_sections (pt : PatternTable) (text : Str) : List (Str × Str) :=
  let positions := section_positions pt text
  if positions = [] then []
  else slice_sections text (sortByAsc (fun x => x.2) positions)

/-- parser.py 39-45, `MIN_WORD_COUNTS`, in dict insertion order. -/
def MIN_WORD_COUNTS : List (Str × Nat) :=
  [("business".data, 500), ("risk_factors".data, 300), ("mda".data, 500),
   ("market_risk".data, 100), ("financials".data, 100)]

/-- parser.py 128-135: number of names in `MIN_WORD_COUNTS` that are present
in `sections` with a word count at or above their threshold. -/
def passed_checks (sections : List (Str × Str)) : Nat :=
  MIN_WORD_COUNTS.countP (fun nm =>
    match sections.lookup nm.1 with
    | some txt => decide (nm.2 ≤ pyWordCount txt)
    | none => false)

/-- parser.py 123-150, the `quality_score` computed by
`FilingParser.validate_sections`.  The source computes
`int((passed_checks / total_checks) * 100)` in binary floating point with
`total_checks = 5`; for each of the six possible values `passed_checks ∈
\x7b0,...,5\x7d` that double computation is exact (0, 20, 40, 60, 80, 100), so it
coincides with truncated natural division `passed * 100 / 5`. -/
def validate_sections (sections : List (Str × Str)) : Nat :=
  passed_checks sections * 100 / 5

/-! ## `edgar/client.py`: primary-document selection (structured-index stage) -/

/-- One entry of `directory.item[]` in the per-filing JSON index
(client.py 121).  `size` models `int(item.get("size", "0"))`, the declared
byte size already parsed. -/
structure IndexItem where
  name : Str
  size : Nat
deriving DecidableEq

/-- Python `name.split(".")[0]`: the part of the filename before the first
dot. -/
def stem (s : Str) : Str := s.takeWhile (fun c => c ≠ '.')

/-- client.py 124-129: the filter defining `htm_files`.  Keeps `item` iff its
lowercased name ends in `.htm` or `.html`, its lowercased name does not
contain `"index"`, and the character `'R'` does not occur in
`item.name.split(".")[0]` (the comment in the source says "skip XBRL
viewer"). -/
def htm_filter (item : IndexItem) : Bool :=
  (((".htm".data).isSuffixOf (pyLower item.name)
      || (".html".data).isSuffixOf (pyLower item.name))
    && !(strContains (pyLower item.name) ("index".data))
    && !((stem item.name).contains 'R'))

/-- client.py 124-139, the structured-index stage of
`EDGARClient.get_filing_document_url`: filter to `htm_files`, stable-sort by
declared size descending, return the name of the head (the source then
prepends the archive directory URL); `none` models falling through to the
HTML-index fallback. -/
def get_filing_document_url_structured (items : List IndexItem) : Option Str :=
  let htm_files := items.filter htm_filter
  match sortByDesc (fun x => x.size) htm_files with
  | [] => none
  | primary :: _ => some primary.name

/-- Modelled from the spec's words, for comparison with the source's filter
(claim C2): "excludes files whose name matches an auxiliary-viewer naming
convention (a single leading letter followed by digits)".  A name matches the
convention iff its stem is one letter followed by one or more digits. -/
def auxViewerName (s : Str) : Bool :=
  match stem s with
  | c :: rest => c.isAlpha && !rest.isEmpty && rest.all Char.isDigit
  | [] => false

/-- The candidate set as the spec's words describe it (claim C2): HTML
extension, no "index", and not an auxiliary-viewer name. -/
def claimCandidates (items : List IndexItem) : List IndexItem :=
  items.filter (fun item =>
    (((".htm".data).isSuffixOf (pyLower item.name)
        || (".html".data).isSuffixOf (pyLower item.name))
      && !(strContains (pyLower item.name) ("index".data))
      && !(auxViewerName item.name)))

/-! ## `edgar/client.py`: rate-limit pacing (claim C3)

`_rate_limited_get` (client.py 34-43) and `fetch_filing_html`
(client.py 169-176) run the same pacing code against the single shared
`self._last_request_time`: read the clock, sleep `delay - elapsed` if the
elapsed time since the recorded timestamp is below the configured delay, then
record the new timestamp and *start* the request.  The timestamp is taken
immediately before the request is issued, i.e. it records request starts. -/

/-- client.py 36-42 / 171-176: given the shared last-request timestamp and
the clock value when the pacing check runs, the time at which the next
request starts (after any pacing sleep). -/
def nextRequestStart (d last now : ℚ) : ℚ :=
  if now - last < d then now + (d - (now - last)) else now

/-- One archive request as seen by the pacing code: the time the operation
reaches the pacing check, and how long the transfer then takes. -/
structure ArchiveRequest where
  arrival : ℚ
  duration : ℚ

/-- The sequence of (start, finish) times of a series of archive requests
routed through the shared timestamp and issued *sequentially*: each
operation's pacing check runs only after the previous request has recorded
its start, so every check reads the timestamp written by the immediately
preceding request (`self._last_request_time` is set to the start time of
each request, client.py 42 and 176).  This covers one operation awaiting
another's completion; it does not cover two operations running their pacing
checks concurrently — that interleaving, reachable because the driver
gathers two archive operations on the same client (main.py 136-139) and the
source awaits its pacing sleep *between* reading and writing the timestamp
(client.py 36-42), is modelled by `concurrentStarts`. -/
def runTrace (d : ℚ) : ℚ → List ArchiveRequest → List (ℚ × ℚ)
  | _, [] => []
  | last, r :: rs =>
    let s := nextRequestStart d last r.arrival
    (s, s + r.duration) :: runTrace d s rs

/-- client.py 36-42 under the concurrent schedule reachable from
`asyncio.gather(edgar_client.get_xbrl_facts(...),
edgar_client.get_filing_document_url(...))` (main.py 136-139): two
operations on the same client both execute the read of
`self._last_request_time` (line 37) before either reaches the write
(line 42) — possible because each awaits its pacing sleep in between — so
both compute their start against the same stale timestamp `last`. -/
def concurrentStarts (d last nowA nowB : ℚ) : ℚ × ℚ :=
  (nextRequestStart d last nowA, nextRequestStart d last nowB)

/-! ## `edgar/client.py`: `_rate_limited_get` retry loop (claim C4) -/

/-- What one attempt of the `for` loop in `_rate_limited_get`
(client.py 34-76) observes: a 429 response, an HTTP error status raised by
`raise_for_status` (`httpx.HTTPStatusError`), a transport-level failure
(`httpx.RequestError`), or a successful response body. -/
inductive AttemptOutcome where
  | status429 : AttemptOutcome
  | httpError : Nat → AttemptOutcome
  | transportError : Str → AttemptOutcome
  | success : Str → AttemptOutcome
deriving DecidableEq

/-- How `_rate_limited_get` terminates: returning a response, raising the
final `RuntimeError` (client.py 78, the spec's `RateLimitExceeded`), or
re-raising the last attempt's error (client.py 66/76, the spec's
`FetchFailed`). -/
inductive FetchResult where
  | ok : Str → FetchResult
  | rateLimitExceeded : FetchResult
  | fetchFailed : AttemptOutcome → FetchResult
deriving DecidableEq

/-- client.py 34-78, the body of `_rate_limited_get`, with the network
abstracted as the per-attempt outcome function.  Returns the result together
with the list of backoff sleeps performed (the `await asyncio.sleep(wait)`
calls; the rate-limit pacing sleeps of lines 36-39 are modelled separately by
`runTrace`). -/
def rate_limited_get_aux (outcomes : Nat → AttemptOutcome) (max_retries : Nat)
    (attempt : Nat) (sleeps : List Nat) : FetchResult × List Nat :=
  if attempt < max_retries + 1 then
    match outcomes attempt with
    | .status429 =>
      rate_limited_get_aux outcomes max_retries (attempt + 1)
        (sleeps ++ [2 ^ (attempt + 1)])
    | .success body => (.ok body, sleeps)
    | .httpError code =>
      if attempt < max_retries then
        rate_limited_get_aux outcomes max_retries (attempt + 1)
          (sleeps ++ [2 ^ (attempt + 1)])
      else (.fetchFailed (.httpError code), sleeps)
    | .transportError e =>
      if attempt < max_retries then
        rate_limited_get_aux outcomes max_retries (attempt + 1)
          (sleeps ++ [2 ^ (attempt + 1)])
      else (.fetchFailed (.transportError e), sleeps)
  else (.rateLimitExceeded, sleeps)
termination_by max_retries + 1 - attempt

/-- An attempt outcome that raises (`httpx.HTTPStatusError` from
`raise_for_status`, or `httpx.RequestError`); these drive the
`except` branches of client.py 57-76. -/
def isErrorOutcome : AttemptOutcome → Prop
  | .httpError _ => True
  | .transportError _ => True
  | .status429 => False
  | .success _ => False

/-- `_rate_limited_get` with its default `max_retries = 3` entry point. -/
def rate_limited_get (outcomes : Nat → AttemptOutcome) (max_retries : Nat := 3) :
    FetchResult × List Nat :=
  rate_limited_get_aux outcomes max_retries 0 []

/-! ## `analysis/groq_client.py`: JSON recovery (claim C6)

`json.loads` is stdlib library code; it is abstracted as a parameter
`loads : Str → Option J` (`none` models `json.JSONDecodeError`).  The fence
regex and the `\x7b.*\x7d` brace scan are embedded concretely. -/

/-- Three backtick characters, the Markdown fence delimiter. -/
def TICKS : Str := ['\x60', '\x60', '\x60']

/-- groq_client.py 38-42: the effect of matching
`^(three ticks)(?:json)?\s*\n?(.*?)\n?\s*(three ticks)$` (DOTALL) against the
stripped text and replacing it by `group(1).strip()`.  The regex matches iff
the text starts and ends with a fence (non-overlapping, hence length ≥ 6);
the greedy/lazy whitespace bookkeeping around the capture group is washed out
by the subsequent `.strip()`, so the result is the interior (minus an
optional leading `json` tag) stripped. -/
def stripFences (s : Str) : Str :=
  if TICKS.isPrefixOf s && TICKS.isSuffixOf s && decide (6 ≤ s.length) then
    let body := (s.drop 3).take (s.length - 6)
    let body := if ("json".data).isPrefixOf body then body.drop 4 else body
    pyStrip body
  else s

/-- Index of the first occurrence of `c` in `s`. -/
def firstIdx (c : Char) : Str → Option Nat
  | [] => none
  | d :: rest => if d = c then some 0 else (firstIdx c rest).map (· + 1)

/-- Index of the last occurrence of `c` in `s`. -/
def lastIdx (c : Char) (s : Str) : Option Nat :=
  (firstIdx c s.reverse).map (fun i => s.length - 1 - i)

/-- groq_client.py 51: `re.search(r"\x7b.*\x7d", cleaned, re.DOTALL)`.  The
leftmost match of a greedy `.*` bracketed by braces runs from the first `'\x7b'`
to the last `'\x7d'` of the whole text, provided the latter comes after the
former; otherwise there is no match. -/
def braceSubstr (s : Str) : Option Str :=
  match firstIdx '\x7b' s, lastIdx '\x7d' s with
  | some i, some j => if i < j then some (pySlice s i (j + 1)) else none
  | _, _ => none

/-- groq_client.py 33-58, `GroqAnalyzer._parse_json_response`: strip, strip
fences, try a direct parse, then try the brace substring; `none` models the
final `raise ValueError`. -/
def parse_json_response {J : Type} (loads : Str → Option J) (text : Str) :
    Option J :=
  let cleaned := stripFences (pyStrip text)
  match loads cleaned with
  | some v => some v
  | none =>
    match braceSubstr cleaned with
    | some sub => loads sub
    | none => none

/-! ## `analysis/groq_client.py`: `analyze_section` (claims C5, C6) -/

/-- What one attempt of the retry loop in `analyze_section`
(groq_client.py 73-126) observes from the model endpoint: a
`RateLimitError`, some other exception, or a response with the given
`message.content`. -/
inductive GroqOutcome where
  | rateLimited : GroqOutcome
  | apiError : Str → GroqOutcome
  | response : Str → GroqOutcome
deriving DecidableEq

/-- The keys of `SECTION_PROMPTS` (prompts.py 68-72). -/
def SECTION_PROMPT_KEYS : List Str :=
  ["business".data, "risk_factors".data, "mda".data]

/-- The dict returned by `analyze_section`, by shape: a parsed payload tagged
with `_section` (and `_model`, constant, elided), the no-template local
error, the `parse_failed` error carrying `raw_text`, an API-error result, or
`max_retries_exceeded`. -/
inductive AnalysisResult (J : Type) where
  | parsed : J → Str → AnalysisResult J
  | noPrompt : Str → AnalysisResult J
  | parseFailed : Str → Str → AnalysisResult J
  | apiError : Str → Str → AnalysisResult J
  | maxRetriesExceeded : Str → AnalysisResult J
deriving DecidableEq

/-- groq_client.py 73-132: the `for attempt in range(3)` loop of
`analyze_section`, with the endpoint abstracted as the per-attempt outcome
function.  Returns the result together with the list of backoff sleeps
performed. -/
def analyze_section_aux {J : Type} (loads : Str → Option J)
    (outcomes : Nat → GroqOutcome) (section_name : Str)
    (attempt : Nat) (sleeps : List Nat) : AnalysisResult J × List Nat :=
  if attempt < 3 then
    match outcomes attempt with
    | .response raw =>
      match parse_json_response loads raw with
      | some v => (.parsed v section_name, sleeps)
      | none => (.parseFailed raw section_name, sleeps)
    | .rateLimited =>
      analyze_section_aux loads outcomes section_name (attempt + 1)
        (sleeps ++ [2 ^ (attempt + 1)])
    | .apiError e => (.apiError e section_name, sleeps)
  else (.maxRetriesExceeded section_name, sleeps)
termination_by 3 - attempt

/-- groq_client.py 60-132, `GroqAnalyzer.analyze_section`.  The prompt
construction and text truncation (lines 70-71) do not affect the claimed
control flow and are folded into the abstract outcome function. -/
def analyze_section {J : Type} (loads : Str → Option J)
    (outcomes : Nat → GroqOutcome) (section_name : Str) :
    AnalysisResult J × List Nat :=
  if section_name ∈ SECTION_PROMPT_KEYS then
    analyze_section_aux loads outcomes section_name 0 []
  else (.noPrompt section_name, [])

/-! ## `edgar/watcher.py`: `poll_once` (claim C9) -/

/-- One feed entry as consumed by `poll_once` (watcher.py 55-58);
`entry.get(..., "")` makes all three fields plain strings. -/
structure FeedEntry where
  title : Str
  link : Str
  summary : Str

/-- The filing event dict built at watcher.py 91-96. -/
structure FilingEvent where
  ticker : Str
  cik : Str
  accession : Str
  title : Str
deriving DecidableEq

/-- watcher.py 61, the pattern `(\d\x7b10\x7d-\d\x7b2\x7d-\d\x7b6\x7d)` anchored at the start
of `s`: ten digits, a dash, two digits, a dash, six digits. -/
def accessionAt (s : Str) : Option Str :=
  let m := s.take 20
  if m.length = 20
      && (m.take 10).all Char.isDigit
      && m.get? 10 = some '-'
      && ((m.drop 11).take 2).all Char.isDigit
      && m.get? 13 = some '-'
      && ((m.drop 14).take 6).all Char.isDigit
  then some m else none

/-- `re.search`: try the anchored matcher at each position left to right. -/
def searchFirst {α : Type} (f : Str → Option α) : Str → Option α
  | [] => f []
  | c :: rest =>
    match f (c :: rest) with
    | some r => some r
    | none => searchFirst f rest

/-- watcher.py 61-64: extract the accession number from `link + " " + summary`. -/
def findAccession (s : Str) : Option Str := searchFirst accessionAt s

/-- watcher.py 70, the pattern `/data/(\d+)/` anchored at the start of `s`:
the literal `/data/`, then a maximal non-empty digit run, then `/`. -/
def cikLinkAt (s : Str) : Option Str :=
  if ("/data/".data).isPrefixOf s then
    let rest := s.drop 6
    let digits := rest.takeWhile Char.isDigit
    if !digits.isEmpty && rest.get? digits.length = some '/' then some digits
    else none
  else none

/-- watcher.py 73, the pattern `CIK[=:]?\s*(\d+)` anchored at the start of
`s`.  The greedy optional `[=:]` needs no backtracking: if consuming it
leaves no digits, not consuming it cannot succeed either. -/
def cikLabelAt (s : Str) : Option Str :=
  if ("CIK".data).isPrefixOf s then
    let rest := s.drop 3
    let rest1 := match rest with
      | c :: t => if c = '=' || c = ':' then t else rest
      | [] => rest
    let rest2 := rest1.dropWhile Char.isWhitespace
    let digits := rest2.takeWhile Char.isDigit
    if !digits.isEmpty then some digits else none
  else none

/-- watcher.py 69-76: CIK from the link, falling back to the labelled pattern
over `title + " " + summary`. -/
def findCik (e : FeedEntry) : Option Str :=
  match searchFirst cikLinkAt e.link with
  | some c => some c
  | none => searchFirst cikLabelAt (e.title ++ [' '] ++ e.summary)

/-- Python `s.lstrip("0")`. -/
def lstripZeros (s : Str) : Str := s.dropWhile (fun c => c = '0')

/-- watcher.py 29 and 79-85: the reverse lookup CIK → ticker, with the
zero-padding-tolerant fallback loop.  The watchlist is the `ticker → cik`
dict in insertion order; `_cik_to_ticker` is its key-swapped image (exact
when the watchlist's CIKs are pairwise distinct, as in the shipped
configuration). -/
def tickerFor (watchlist : List (Str × Str)) (cik : Str) : Option Str :=
  let rev := watchlist.map (fun p => (p.2, p.1))
  match rev.lookup cik with
  | some t => some t
  | none =>
    (rev.find? (fun p => lstripZeros cik = lstripZeros p.1)).map (fun p => p.2)

/-- watcher.py 55-98: the entry loop of `poll_once`, threading the
`seen_accessions` set (modelled as a list with membership semantics; adding
appends).  Returns the accepted events and the final seen set. -/
def poll_once_loop (watchlist : List (Str × Str)) :
    List Str → List FeedEntry → List FilingEvent × List Str
  | seen, [] => ([], seen)
  | seen, e :: rest =>
    match findAccession (e.link ++ [' '] ++ e.summary) with
    | none => poll_once_loop watchlist seen rest
    | some accession =>
      if accession ∈ seen then poll_once_loop watchlist seen rest
      else
        match findCik e with
        | none => poll_once_loop watchlist seen rest
        | some cik =>
          match tickerFor watchlist cik with
          | none => poll_once_loop watchlist seen rest
          | some ticker =>
            let seen' := seen ++ [accession]
            let ev : FilingEvent :=
              { ticker := ticker,
                cik := ((watchlist.lookup ticker).getD []),
                accession := accession,
                title := e.title }
            let res := poll_once_loop watchlist seen' rest
            (ev :: res.1, res.2)

/-- watcher.py 41-100, `FilingWatcher.poll_once`, with the fetched and parsed
feed abstracted as the entry list. -/
def poll_once (watchlist : List (Str × Str)) (seen : List Str)
    (entries : List FeedEntry) : List FilingEvent × List Str :=
  poll_once_loop watchlist seen entries

/-! ## `edgar/client.py`: `_extract_annual_values` (claim C10) -/

/-- One entry of `facts.us-gaap.<Concept>.units.USD[]` (client.py 232-237):
`form`, `fp` and `end` are strings (`.get(..., "")` never fires on `end` in
wellformed feeds, but we keep the `""` default by using a plain `String`);
`val` and `fy` are `entry.get(...)`, hence optional. -/
structure XbrlEntry where
  form : Str
  fp : Str
  endDate : Str
  val : Option Int
  fy : Option Int
deriving DecidableEq

/-- One element of the list returned by `_extract_annual_values`
(client.py 250-254). -/
structure AnnualValue where
  period_end : Str
  value : Option Int
  fiscal_year : Option Int
deriving DecidableEq

/-- client.py 243-257: walk the sorted annual entries, skipping entries whose
`end` date was already seen, appending the projected record otherwise, and
breaking as soon as three unique records are collected (the `break` check
runs every iteration, after the dedup step). -/
def dedup_take3 : List XbrlEntry → List Str → List AnnualValue →
    List AnnualValue
  | [], _, unique => unique
  | e :: rest, seen_dates, unique =>
    let step :=
      if e.endDate ∈ seen_dates then (seen_dates, unique)
      else (e.endDate :: seen_dates,
            unique ++ [(⟨e.endDate, e.val, e.fy⟩ : AnnualValue)])
    if 3 ≤ step.2.length then step.2
    else dedup_take3 rest step.1 step.2

/-- client.py 234-238: the annual filter over a concept's USD entries. -/
def annualOf (us_gaap : List (String × List XbrlEntry)) (concept : String) :
    List XbrlEntry :=
  ((us_gaap.lookup concept).getD []).filter
    (fun v => v.form == "10-K".data && v.fp == "FY".data)

/-- client.py 227-259, `_extract_annual_values`: try the concept names in
priority order; the first with a non-empty annual filter yields the series
(stable-sorted by `end` descending, deduplicated by `end`, at most three);
otherwise the empty list. -/
def extract_annual_values (us_gaap : List (String × List XbrlEntry)) :
    List String → List AnnualValue
  | [] => []
  | concept :: rest =>
    let annual := annualOf us_gaap concept
    if annual.isEmpty then extract_annual_values us_gaap rest
    else dedup_take3 (sortByDesc (fun v => v.endDate) annual) [] []

/-! ## Concrete fixtures used by witnesses and counterexamples -/

/-- `n` words of one letter each, separated by spaces (`"a a a ... a "`). -/
def manyWords (n : Nat) : Str := (List.replicate n ['a', ' ']).flatten

/-- A section table meeting every `MIN_WORD_COUNTS` threshold exactly. -/
def secW : List (Str × Str) :=
  [("business".data, manyWords 500), ("risk_factors".data, manyWords 300),
   ("mda".data, manyWords 500), ("market_risk".data, manyWords 100),
   ("financials".data, manyWords 100)]

/-- A pattern table reporting two matches, at positions 1 and 30, for every
pattern (as `finditer` would for a document whose heading appears once in the
table of contents and once at the real section). -/
def ptTwo : PatternTable := ⟨fun _ _ => [1, 30]⟩

/-- A 24-character cleaned document whose business heading sits right after
the leading newline; the real pattern
`(?:^|\n)\s*(?:ITEM|Item)\s+1[\.\s:]+\s*(?:BUSINESS|Business)` matches it at
position 1 (the position of the `'\n'`). -/
def textC8 : Str := "T\nItem 1. Business Hello".data

/-- The pattern table recording exactly that match of the business pattern on
`textC8`, and no other match anywhere. -/
def ptC8 : PatternTable :=
  ⟨fun name text =>
    if name = "business".data ∧ text = textC8 then [1] else []⟩

/-- A filing index whose only HTML file has a capital `R` in its stem but is
not named like an inline-XBRL viewer artifact (`R` + digits). -/
def itemsC2 : List IndexItem := [⟨"Report10K.htm".data, 100⟩]

/-- A trivial JSON parser over payload type `Unit` accepting exactly the text
`"\x7bX\x7d"`. -/
def loadsBrace : Str → Option Unit :=
  fun s => if s = ['\x7b', 'X', '\x7d'] then some () else none

/-- Model endpoint behaviour: rate-limited on the first three attempts, a
parseable response on the fourth — which the source never reaches. -/
def outcomesC5 : Nat → GroqOutcome :=
  fun i => if i < 3 then .rateLimited else .response ['\x7b', 'X', '\x7d']

/-- Model endpoint behaviour: rate-limited once, then a parseable response. -/
def outcomesOneBackoff : Nat → GroqOutcome :=
  fun i => if i = 0 then .rateLimited else .response ['\x7b', 'X', '\x7d']

/-- Free-form prose with exactly one brace-delimited object embedded. -/
def proseWithJson : Str := "note ".data ++ ['\x7b', 'X', '\x7d'] ++ " end".data

/-- Text with no braces at all. -/
def junkText : Str := "junk".data

/-- Endpoint returning the given raw text on the first attempt. -/
def outcomesRespond (raw : Str) : Nat → GroqOutcome := fun _ => .response raw

/-- A one-company watchlist. -/
def wlW : List (Str × Str) := [("AAPL".data, "320193".data)]

/-- Feed entry for the already-seen accession A. -/
def entryA : FeedEntry :=
  { title := "10-K - Apple Inc.".data, link := "/data/320193/".data,
    summary := "0000320193-24-000123".data }

/-- Feed entry for the new accession B, same watchlist company. -/
def entryB : FeedEntry :=
  { title := "10-K - Apple Inc.".data, link := "/data/320193/".data,
    summary := "0000320193-24-000124".data }

/-- The accession numbers of the two fixture entries. -/
def accA : Str := "0000320193-24-000123".data

/-- See `accA`. -/
def accB : Str := "0000320193-24-000124".data

/-- XBRL facts fixture: the first revenue concept has no annual entry (a
quarterly one only), the second has four annual entries, two sharing a
period-end date. -/
def usGaapW : List (String × List XbrlEntry) :=
  [("Revenues",
    [⟨"10-Q".data, "Q1".data, "2024-03-31".data, some 5, some 2024⟩]),
   ("SalesRevenueNet",
    [⟨"10-K".data, "FY".data, "2022-12-31".data, some 10, some 2022⟩,
     ⟨"10-K".data, "FY".data, "2024-12-31".data, some 30, some 2024⟩,
     ⟨"10-K".data, "FY".data, "2024-12-31".data, some 31, some 2024⟩,
     ⟨"10-K".data, "FY".data, "2023-12-31".data, some 20, some 2023⟩])]

/-- A filing index with three candidate HTML files of different sizes. -/
def itemsW : List IndexItem :=
  [⟨"a.htm".data, 10⟩, ⟨"b.htm".data, 99⟩, ⟨"c.htm".data, 50⟩]

/-! ## Lemmas about the stable sorts -/

theorem mem_insertByGe {α β : Type} [LinearOrder β] (k : α → β) (x a : α) :
    ∀ l : List α, a ∈ insertByGe k x l ↔ a = x ∨ a ∈ l := by
  intro l
  induction l with
  | nil => simp [insertByGe]
  | cons y ys ih =>
    simp only [insertByGe]
    split
    · simp only [List.mem_cons, ih]
      tauto
    · simp only [List.mem_cons]

theorem pairwise_insertByGe {α β : Type} [LinearOrder β] (k : α → β) (x : α) :
    ∀ l : List α, l.Pairwise (fun a b => k b ≤ k a) →
      (insertByGe k x l).Pairwise (fun a b => k b ≤ k a) := by
  intro l
  induction l with
  | nil => simp [insertByGe]
  | cons y ys ih =>
    intro h
    rw [List.pairwise_cons] at h
    obtain ⟨hy, hys⟩ := h
    simp only [insertByGe]
    split
    · rename_i hxy
      rw [List.pairwise_cons]
      refine ⟨fun z hz => ?_, ih hys⟩
      rcases (mem_insertByGe k x z ys).mp hz with rfl | hz
      · exact hxy
      · exact hy z hz
    · rename_i hxy
      push_neg at hxy
      rw [List.pairwise_cons]
      refine ⟨fun z hz => ?_, List.pairwise_cons.mpr ⟨hy, hys⟩⟩
      rcases List.mem_cons.mp hz with rfl | hz
      · exact le_of_lt hxy
      · exact le_trans (hy z hz) (le_of_lt hxy)

theorem mem_foldl_insertByGe {α β : Type} [LinearOrder β] (k : α → β) (a : α) :
    ∀ (l acc : List α),
      a ∈ l.foldl (fun acc x => insertByGe k x acc) acc ↔ a ∈ acc ∨ a ∈ l := by
  intro l
  induction l with
  | nil => simp
  | cons x xs ih =>
    intro acc
    simp only [List.foldl_cons, ih, mem_insertByGe, List.mem_cons]
    tauto

theorem mem_sortByDesc {α β : Type} [LinearOrder β] (k : α → β) (a : α)
    (l : List α) : a ∈ sortByDesc k l ↔ a ∈ l := by
  unfold sortByDesc
  rw [mem_foldl_insertByGe]
  simp

theorem pairwise_foldl_insertByGe {α β : Type} [LinearOrder β] (k : α → β) :
    ∀ (l acc : List α), acc.Pairwise (fun a b => k b ≤ k a) →
      (l.foldl (fun acc x => insertByGe k x acc) acc).Pairwise
        (fun a b => k b ≤ k a) := by
  intro l
  induction l with
  | nil => intro acc h; simpa using h
  | cons x xs ih =>
    intro acc h
    exact ih _ (pairwise_insertByGe k x acc h)

theorem pairwise_sortByDesc {α β : Type} [LinearOrder β] (k : α → β)
    (l : List α) : (sortByDesc k l).Pairwise (fun a b => k b ≤ k a) :=
  pairwise_foldl_insertByGe k l [] (by simp)

theorem sortByDesc_head_max {α β : Type} [LinearOrder β] (k : α → β)
    (l : List α) (x : α) (rest : List α) (h : sortByDesc k l = x :: rest) :
    x ∈ l ∧ ∀ y ∈ l, k y ≤ k x := by
  have hx : x ∈ l := by
    rw [← mem_sortByDesc k x l, h]; exact List.mem_cons_self x rest
  refine ⟨hx, fun y hy => ?_⟩
  have hy' : y ∈ sortByDesc k l := (mem_sortByDesc k y l).mpr hy
  rw [h] at hy'
  rcases List.mem_cons.mp hy' with rfl | hy''
  · exact le_refl _
  · have hp := pairwise_sortByDesc k l
    rw [h, List.pairwise_cons] at hp
    exact hp.1 y hy''

theorem sortByDesc_eq_nil {α β : Type} [LinearOrder β] (k : α → β)
    (l : List α) : sortByDesc k l = [] ↔ l = [] := by
  constructor
  · intro h
    rcases l with _ | ⟨x, xs⟩
    · rfl
    · exfalso
      have : x ∈ sortByDesc k (x :: xs) :=
        (mem_sortByDesc k x (x :: xs)).mpr (List.mem_cons_self x xs)
      rw [h] at this
      exact (List.not_mem_nil x) this
  · intro h; subst h; rfl

theorem mem_insertByLe {α β : Type} [LinearOrder β] (k : α → β) (x a : α) :
    ∀ l : List α, a ∈ insertByLe k x l ↔ a = x ∨ a ∈ l := by
  intro l
  induction l with
  | nil => simp [insertByLe]
  | cons y ys ih =>
    simp only [insertByLe]
    split
    · simp only [List.mem_cons, ih]
      tauto
    · simp only [List.mem_cons]

theorem pairwise_insertByLe {α β : Type} [LinearOrder β] (k : α → β) (x : α) :
    ∀ l : List α, l.Pairwise (fun a b => k a ≤ k b) →
      (insertByLe k x l).Pairwise (fun a b => k a ≤ k b) := by
  intro l
  induction l with
  | nil => simp [insertByLe]
  | cons y ys ih =>
    intro h
    rw [List.pairwise_cons] at h
    obtain ⟨hy, hys⟩ := h
    simp only [insertByLe]
    split
    · rename_i hxy
      rw [List.pairwise_cons]
      refine ⟨fun z hz => ?_, ih hys⟩
      rcases (mem_insertByLe k x z ys).mp hz with rfl | hz
      · exact hxy
      · exact hy z hz
    · rename_i hxy
      push_neg at hxy
      rw [List.pairwise_cons]
      refine ⟨fun z hz => ?_, List.pairwise_cons.mpr ⟨hy, hys⟩⟩
      rcases List.mem_cons.mp hz with rfl | hz
      · exact le_of_lt hxy
      · exact le_trans (le_of_lt hxy) (hy z hz)

theorem mem_foldl_insertByLe {α β : Type} [LinearOrder β] (k : α → β) (a : α) :
    ∀ (l acc : List α),
      a ∈ l.foldl (fun acc x => insertByLe k x acc) acc ↔ a ∈ acc ∨ a ∈ l := by
  intro l
  induction l with
  | nil => simp
  | cons x xs ih =>
    intro acc
    simp only [List.foldl_cons, ih, mem_insertByLe, List.mem_cons]
    tauto

theorem mem_sortByAsc {α β : Type} [LinearOrder β] (k : α → β) (a : α)
    (l : List α) : a ∈ sortByAsc k l ↔ a ∈ l := by
  unfold sortByAsc
  rw [mem_foldl_insertByLe]
  simp

theorem pairwise_sortByAsc {α β : Type} [LinearOrder β] (k : α → β)
    (l : List α) : (sortByAsc k l).Pairwise (fun a b => k a ≤ k b) := by
  unfold sortByAsc
  have : ∀ (l acc : List α), acc.Pairwise (fun a b => k a ≤ k b) →
      (l.foldl (fun acc x => insertByLe k x acc) acc).Pairwise
        (fun a b => k a ≤ k b) := by
    intro l
    induction l with
    | nil => intro acc h; simpa using h
    | cons x xs ih => intro acc h; exact ih _ (pairwise_insertByLe k x acc h)
  exact this l [] (by simp)

/-! ## Small list utilities -/

theorem lookup_filterMap_not_mem (g : Str → Option Nat) (name : Str) :
    ∀ ns : List Str, name ∉ ns →
      (ns.filterMap (fun n => (g n).map (fun p => (n, p)))).lookup name =
        none := by
  intro ns
  induction ns with
  | nil => intro _; rfl
  | cons m ms ih =>
    intro h
    have hnm : name ≠ m := fun hh => h (hh ▸ List.mem_cons_self m ms)
    have hms : name ∉ ms := fun hh => h (List.mem_cons_of_mem m hh)
    cases hg : g m with
    | none => simpa [List.filterMap_cons, hg] using ih hms
    | some p =>
      simp only [List.filterMap_cons, hg, Option.map_some', List.lookup_cons]
      have : (name == m) = false := beq_false_of_ne hnm
      simp [this, ih hms]

theorem lookup_filterMap (g : Str → Option Nat) (name : Str) :
    ∀ ns : List Str, ns.Nodup → name ∈ ns →
      (ns.filterMap (fun n => (g n).map (fun p => (n, p)))).lookup name =
        g name := by
  intro ns
  induction ns with
  | nil => intro _ h; cases h
  | cons m ms ih =>
    intro hnd hmem
    rw [List.nodup_cons] at hnd
    rcases List.mem_cons.mp hmem with rfl | hmem'
    · cases hg : g name with
      | some p =>
        simp [List.filterMap_cons, hg, List.lookup_cons]
      | none =>
        simp only [List.filterMap_cons, hg, Option.map_none']
        exact lookup_filterMap_not_mem g name ms hnd.1
    · have hne : name ≠ m := fun hh => hnd.1 (hh ▸ hmem')
      cases hg : g m with
      | none => simpa [List.filterMap_cons, hg] using ih hnd.2 hmem'
      | some p =>
        simp only [List.filterMap_cons, hg, Option.map_some', List.lookup_cons]
        have : (name == m) = false := beq_false_of_ne hne
        simp only [this]
        exact ih hnd.2 hmem'

theorem pairwise_lt_getLast? :
    ∀ (l : List Nat), l.Pairwise (· < ·) → ∀ p, l.getLast? = some p →
      ∀ q ∈ l, q ≤ p := by
  intro l
  induction l with
  | nil => intro _ p hp; cases hp
  | cons x xs ih =>
    intro hpair p hp q hq
    rw [List.pairwise_cons] at hpair
    cases xs with
    | nil =>
      simp only [List.getLast?_singleton, Option.some.injEq] at hp
      subst hp
      rcases List.mem_cons.mp hq with rfl | hq'
      · exact le_refl q
      · cases hq'
    | cons y ys =>
      rw [List.getLast?_cons_cons] at hp
      have hpmem : p ∈ y :: ys := by
        have := List.mem_getLast?_eq_getLast (l := y :: ys) (x := p) hp
        obtain ⟨hne, rfl⟩ := this
        exact List.getLast_mem hne
      rcases List.mem_cons.mp hq with rfl | hq'
      · exact le_of_lt (hpair.1 p hpmem)
      · exact ih hpair.2 p hp q hq'

theorem length_dropWhile_le_self (p : Char → Bool) :
    ∀ s : Str, (s.dropWhile p).length ≤ s.length := by
  intro s
  induction s with
  | nil => simp
  | cons c rest ih =>
    by_cases h : p c
    · rw [List.dropWhile_cons_of_pos h]
      exact le_trans ih (Nat.le_succ _)
    · rw [List.dropWhile_cons_of_neg h]

theorem pyStrip_length_le (s : Str) : (pyStrip s).length ≤ s.length := by
  unfold pyStrip
  rw [List.length_reverse]
  refine le_trans (length_dropWhile_le_self _ _) ?_
  rw [List.length_reverse]
  exact length_dropWhile_le_self _ s

theorem length_pySlice (s : Str) (a b : Nat) :
    (pySlice s a b).length = min (b - a) (s.length - a) := by
  unfold pySlice
  rw [List.length_take, List.length_drop]

theorem pyWordCount_manyWords (n : Nat) : pyWordCount (manyWords n) = n := by
  induction n with
  | zero => rfl
  | succ m ih =>
    have hexp : manyWords (m + 1) = 'a' :: ' ' :: manyWords m := by
      simp [manyWords, List.replicate_succ]
    unfold pyWordCount at *
    rw [hexp]
    have h1 : 'a'.isWhitespace = false := by decide
    have h2 : ' '.isWhitespace = true := by decide
    simp only [countWordsAux, h1, h2, if_true, if_false, Bool.false_eq_true]
    rw [ih]
    omega

/-! ## Lemmas about slicing and character searches -/

theorem pySlice_head (s : Str) (a b : Nat) (hab : a < b) :
    (pySlice s a b).head? = s[a]? := by
  unfold pySlice
  rw [List.head?_eq_getElem?, List.getElem?_take]
  rw [if_pos (by omega)]
  rw [List.getElem?_drop]
  norm_num

theorem pySlice_getLast (s : Str) (a b : Nat) (hab : a < b)
    (hb : b ≤ s.length) :
    (pySlice s a b).getLast? = s[b - 1]? := by
  rw [List.getLast?_eq_getElem?]
  have hlen : (pySlice s a b).length = b - a := by
    rw [length_pySlice]; omega
  rw [hlen]
  unfold pySlice
  rw [List.getElem?_take, if_pos (by omega), List.getElem?_drop]
  congr 1
  omega

theorem firstIdx_spec (c : Char) :
    ∀ (s : Str) (i : Nat), firstIdx c s = some i →
      s[i]? = some c ∧ ∀ a, s[a]? = some c → i ≤ a := by
  intro s
  induction s with
  | nil => intro i h; cases h
  | cons d rest ih =>
    intro i h
    unfold firstIdx at h
    by_cases hd : d = c
    · rw [if_pos hd] at h
      obtain rfl : (0 : Nat) = i := by injection h
      exact ⟨by simp [hd], fun a _ => Nat.zero_le a⟩
    · rw [if_neg hd] at h
      obtain ⟨i', hi', rfl⟩ : ∃ i', firstIdx c rest = some i' ∧ i = i' + 1 := by
        cases hrec : firstIdx c rest with
        | none => rw [hrec] at h; cases h
        | some k =>
          rw [hrec] at h
          simp only [Option.map_some', Option.some.injEq] at h
          exact ⟨k, rfl, h.symm⟩
      obtain ⟨h1, h2⟩ := ih i' hi'
      refine ⟨by simpa [List.getElem?_cons_succ] using h1, fun a ha => ?_⟩
      cases a with
      | zero =>
        rw [List.getElem?_cons_zero] at ha
        exact absurd (by injection ha) hd
      | succ a' =>
        rw [List.getElem?_cons_succ] at ha
        exact Nat.succ_le_succ (h2 a' ha)

theorem lastIdx_spec (c : Char) (s : Str) (j : Nat)
    (h : lastIdx c s = some j) :
    s[j]? = some c ∧ ∀ a, s[a]? = some c → a ≤ j := by
  unfold lastIdx at h
  obtain ⟨i, hi, rfl⟩ : ∃ i, firstIdx c s.reverse = some i ∧
      s.length - 1 - i = j := by
    cases hrec : firstIdx c s.reverse with
    | none => rw [hrec] at h; cases h
    | some k =>
      rw [hrec] at h
      simp only [Option.map_some', Option.some.injEq] at h
      exact ⟨k, rfl, h⟩
  obtain ⟨h1, h2⟩ := firstIdx_spec c s.reverse i hi
  have hilen : i < s.length := by
    have := (List.getElem?_eq_some.mp h1).1
    simpa [List.length_reverse] using this
  have hrev : s.reverse[i]? = s[s.length - 1 - i]? :=
    List.getElem?_reverse (by simpa [List.length_reverse] using hilen)
  refine ⟨by rw [← hrev]; exact h1, fun a ha => ?_⟩
  have halen : a < s.length := (List.getElem?_eq_some.mp ha).1
  have hrev' : s.reverse[s.length - 1 - a]? = s[a]? := by
    rw [List.getElem?_reverse (by omega)]
    congr 1
    omega
  have := h2 (s.length - 1 - a) (by rw [hrev']; exact ha)
  omega

theorem length_slice_sections (text : Str) :
    ∀ l : List (Str × Nat), (slice_sections text l).length = l.length := by
  intro l
  induction l with
  | nil => rfl
  | cons hd tl ih =>
    obtain ⟨n, st⟩ := hd
    simp only [slice_sections, List.length_cons, ih]

theorem slice_sections_getElem (text : Str) :
    ∀ (l : List (Str × Nat)) (i : Nat),
      (slice_sections text l)[i]? = (l[i]?).map (fun ns =>
        (ns.1, pyStrip (pySlice text ns.2
          ((l[i + 1]?).elim (min (ns.2 + 50000) text.length)
            (fun q => q.2))))) := by
  intro l
  induction l with
  | nil => intro i; simp [slice_sections]
  | cons hd tl ih =>
    obtain ⟨n, st⟩ := hd
    intro i
    cases i with
    | zero =>
      cases tl with
      | nil => simp [slice_sections]
      | cons r rs =>
        obtain ⟨rn, rp⟩ := r
        simp [slice_sections]
    | succ i' =>
      simp only [slice_sections, List.getElem?_cons_succ]
      exact ih i'

/-! ## The `dedup_take3` invariant (claim C10) -/

theorem dedup_take3_invariant :
    ∀ (l : List XbrlEntry) (seen : List Str) (acc : List AnnualValue),
      acc.length < 3 →
      (∀ a ∈ acc, a.period_end ∈ seen) →
      acc.Pairwise (fun a b => a.period_end ≠ b.period_end) →
      acc.Pairwise (fun a b => b.period_end ≤ a.period_end) →
      l.Pairwise (fun a b => b.endDate ≤ a.endDate) →
      (∀ a ∈ acc, ∀ e ∈ l, e.endDate ≤ a.period_end) →
      (dedup_take3 l seen acc).length ≤ 3 ∧
      (dedup_take3 l seen acc).Pairwise
        (fun a b => a.period_end ≠ b.period_end) ∧
      (dedup_take3 l seen acc).Pairwise
        (fun a b => b.period_end ≤ a.period_end) := by
  intro l
  induction l with
  | nil =>
    intro seen acc hlen hsub hnd hsort _ _
    exact ⟨le_of_lt hlen, hnd, hsort⟩
  | cons e rest ih =>
    intro seen acc hlen hsub hnd hsort hl hcross
    rw [List.pairwise_cons] at hl
    by_cases hdup : e.endDate ∈ seen
    · have hstep : dedup_take3 (e :: rest) seen acc =
          dedup_take3 rest seen acc := by
        simp only [dedup_take3, if_pos hdup]
        rw [if_neg (by omega)]
      rw [hstep]
      exact ih seen acc hlen hsub hnd hsort hl.2
        (fun a ha e' he' => hcross a ha e' (List.mem_cons_of_mem e he'))
    · have hne : ∀ a ∈ acc, a.period_end ≠ e.endDate := by
        intro a ha hcontra
        exact hdup (hcontra ▸ hsub a ha)
      have hcr : ∀ a ∈ acc,
          (⟨e.endDate, e.val, e.fy⟩ : AnnualValue).period_end ≤
            a.period_end :=
        fun a ha => hcross a ha e (List.mem_cons_self e rest)
      have hnd' : (acc ++ [(⟨e.endDate, e.val, e.fy⟩ : AnnualValue)]).Pairwise
          (fun a b => a.period_end ≠ b.period_end) := by
        rw [List.pairwise_append]
        refine ⟨hnd, by simp, fun a ha b hb => ?_⟩
        rw [List.mem_singleton] at hb
        subst hb
        exact hne a ha
      have hsort' : (acc ++ [(⟨e.endDate, e.val, e.fy⟩ : AnnualValue)]).Pairwise
          (fun a b => b.period_end ≤ a.period_end) := by
        rw [List.pairwise_append]
        refine ⟨hsort, by simp, fun a ha b hb => ?_⟩
        rw [List.mem_singleton] at hb
        subst hb
        exact hcr a ha
      by_cases h3 : 3 ≤ acc.length + 1
      · have hstep : dedup_take3 (e :: rest) seen acc =
            acc ++ [(⟨e.endDate, e.val, e.fy⟩ : AnnualValue)] := by
          simp only [dedup_take3, if_neg hdup]
          rw [if_pos (by simpa using h3)]
        rw [hstep]
        refine ⟨?_, hnd', hsort'⟩
        rw [List.length_append]
        simp only [List.length_singleton]
        omega
      · have hstep : dedup_take3 (e :: rest) seen acc =
            dedup_take3 rest (e.endDate :: seen)
              (acc ++ [(⟨e.endDate, e.val, e.fy⟩ : AnnualValue)]) := by
          simp only [dedup_take3, if_neg hdup]
          rw [if_neg (by simpa using h3)]
        rw [hstep]
        refine ih (e.endDate :: seen) (acc ++ [(⟨e.endDate, e.val, e.fy⟩ : AnnualValue)])
          (by rw [List.length_append]; simp; omega)
          ?_ hnd' hsort' hl.2 ?_
        · intro a ha
          rcases List.mem_append.mp ha with ha' | ha'
          · exact List.mem_cons_of_mem _ (hsub a ha')
          · rw [List.mem_singleton] at ha'
            subst ha'
            exact List.mem_cons_self _ _
        · intro a ha e' he'
          rcases List.mem_append.mp ha with ha' | ha'
          · exact hcross a ha' e' (List.mem_cons_of_mem e he')
          · rw [List.mem_singleton] at ha'
            subst ha'
            exact hl.1 e' he'

/-! ## Claim C7 -/

/-- C7: for every sections mapping, `validate_sections` returns
`100 × n / 5` truncated, where `n` is the number of the five expected section
names that are present with a word count at least their name-specific minimum
(business ≥ 500, risk_factors ≥ 300, mda ≥ 500, market_risk ≥ 100,
financials ≥ 100); the score always lies in `[0, 100]`, is exactly `100` when
all five sections are present at or above threshold, and `0` when none is
present.  (Determinism is immediate: the score is a function of the
mapping.) -/
theorem validate_sections_score (sections : List (Str × Str)) :
    validate_sections sections =
      100 * (MIN_WORD_COUNTS.countP (fun nm =>
        match sections.lookup nm.1 with
        | some txt => decide (nm.2 ≤ pyWordCount txt)
        | none => false)) / 5 ∧
    validate_sections sections ≤ 100 ∧
    ((∀ nm ∈ MIN_WORD_COUNTS, ∃ txt, sections.lookup nm.1 = some txt ∧
        nm.2 ≤ pyWordCount txt) → validate_sections sections = 100) ∧
    ((∀ nm ∈ MIN_WORD_COUNTS, sections.lookup nm.1 = none) →
      validate_sections sections = 0) := by
  have hle : passed_checks sections ≤ 5 := by
    have := List.countP_le_length (l := MIN_WORD_COUNTS)
      (p := fun nm => match sections.lookup nm.1 with
        | some txt => decide (nm.2 ≤ pyWordCount txt)
        | none => false)
    simpa [MIN_WORD_COUNTS, passed_checks] using this
  refine ⟨?_, ?_, ?_, ?_⟩
  · unfold validate_sections passed_checks
    ring_nf
  · unfold validate_sections
    omega
  · intro hall
    have hfull : passed_checks sections = 5 := by
      unfold passed_checks
      rw [show (5 : Nat) = MIN_WORD_COUNTS.length from rfl]
      rw [List.countP_eq_length]
      intro nm hnm
      obtain ⟨txt, hfound, hw⟩ := hall nm hnm
      rw [hfound]
      exact decide_eq_true hw
    unfold validate_sections
    rw [hfull]
  · intro hnone
    have hzero : passed_checks sections = 0 := by
      unfold passed_checks
      rw [List.countP_eq_zero]
      intro nm hnm
      rw [hnone nm hnm]
      simp
    unfold validate_sections
    rw [hzero]

/-- Witness for C7: a concrete table meeting every threshold scores 100; the
empty table scores 0. -/
theorem validate_sections_score_witness :
    validate_sections secW = 100 ∧ validate_sections [] = 0 := by
  constructor
  · apply (validate_sections_score secW).2.2.1
    intro nm hnm
    simp only [MIN_WORD_COUNTS, List.mem_cons, List.not_mem_nil,
      or_false] at hnm
    rcases hnm with rfl | rfl | rfl | rfl | rfl
    · exact ⟨manyWords 500, rfl, by rw [pyWordCount_manyWords]⟩
    · exact ⟨manyWords 300, rfl, by rw [pyWordCount_manyWords]⟩
    · exact ⟨manyWords 500, rfl, by rw [pyWordCount_manyWords]⟩
    · exact ⟨manyWords 100, rfl, by rw [pyWordCount_manyWords]⟩
    · exact ⟨manyWords 100, rfl, by rw [pyWordCount_manyWords]⟩
  · exact (validate_sections_score []).2.2.2 (fun nm _ => rfl)

/-! ## Claim C1 -/

/-- C1: whenever a section's pattern occurs two or more times in the
document (`finditer` returns the ascending list of occurrence positions),
`extract_sections`'s position table records the last occurrence's position,
which is the maximum; in particular for exactly two occurrences the second
one's position is selected. -/
theorem extract_sections_uses_last_occurrence (pt : PatternTable)
    (text : Str) (name : Str) (occs : List Nat)
    (hname : name ∈ SECTION_PATTERN_NAMES)
    (hocc : pt.finditer name text = occs)
    (hasc : occs.Pairwise (· < ·))
    (hlen : 2 ≤ occs.length) :
    ∃ p, (section_positions pt text).lookup name = some p ∧
      occs.getLast? = some p ∧ (∀ q ∈ occs, q ≤ p) ∧
      ∀ p1 p2, occs = [p1, p2] → p = p2 := by
  have hnd : SECTION_PATTERN_NAMES.Nodup := by decide
  have hlk := lookup_filterMap (fun n => (pt.finditer n text).getLast?)
    name SECTION_PATTERN_NAMES hnd hname
  have hne : occs ≠ [] := by
    intro h
    rw [h] at hlen
    simp at hlen
  obtain ⟨p, hp⟩ : ∃ p, occs.getLast? = some p :=
    ⟨occs.getLast hne, List.getLast?_eq_getLast_of_ne_nil hne⟩
  refine ⟨p, ?_, hp, pairwise_lt_getLast? occs hasc p hp, ?_⟩
  · unfold section_positions
    rw [hlk]
    show (pt.finditer name text).getLast? = some p
    rw [hocc, hp]
  · intro p1 p2 h2
    rw [h2, List.getLast?_cons_cons, List.getLast?_singleton] at hp
    exact (Option.some.injEq _ _ ▸ hp).symm

/-- Witness for C1: with two occurrences at positions 1 and 30, the recorded
section start is 30, the second occurrence. -/
theorem extract_sections_uses_last_occurrence_witness :
    (section_positions ptTwo []).lookup ("business".data) = some 30 := by
  obtain ⟨p, hlook, hlast, -, -⟩ :=
    extract_sections_uses_last_occurrence ptTwo [] ("business".data) [1, 30]
      (by decide) rfl (by decide) (by decide)
  rw [List.getLast?_cons_cons, List.getLast?_singleton] at hlast
  have hp : (30 : Nat) = p := by injection hlast
  rw [hlook, ← hp]

/-! ## Claim C8 -/

/-- C8 (amended): when the found sections are ordered by start position
ascending, each section's stored text is the *whitespace-stripped* slice of
the input from its own start position to the next section's start position
(the source applies `.strip()` to every slice, parser.py 116), the final
section's slice runs to `min(start + 50000, len(text))`, and the final
section's stored text never exceeds 50 000 characters. -/
theorem extract_sections_slicing (pt : PatternTable) (text : Str)
    (hne : section_positions pt text ≠ []) :
    extract_sections pt text =
      slice_sections text
        (sortByAsc (fun x => x.2) (section_positions pt text)) ∧
    (sortByAsc (fun x => x.2) (section_positions pt text)).Pairwise
      (fun a b => a.2 ≤ b.2) ∧
    (∀ a, a ∈ sortByAsc (fun x => x.2) (section_positions pt text) ↔
      a ∈ section_positions pt text) ∧
    (∀ i, (extract_sections pt text)[i]? =
      ((sortByAsc (fun x => x.2) (section_positions pt text))[i]?).map
        (fun ns => (ns.1, pyStrip (pySlice text ns.2
          (((sortByAsc (fun x => x.2)
              (section_positions pt text))[i + 1]?).elim
            (min (ns.2 + 50000) text.length) (fun q => q.2)))))) ∧
    (∀ nm txt, (extract_sections pt text).getLast? = some (nm, txt) →
      txt.length ≤ 50000) := by
  have hex : extract_sections pt text =
      slice_sections text
        (sortByAsc (fun x => x.2) (section_positions pt text)) := by
    unfold extract_sections
    rw [if_neg hne]
  refine ⟨hex, pairwise_sortByAsc _ _,
    fun a => mem_sortByAsc _ a _, fun i => by
      rw [hex]; exact slice_sections_getElem text _ i, ?_⟩
  intro nm txt hlast
  have hne2 : extract_sections pt text ≠ [] := by
    intro h
    rw [h] at hlast
    cases hlast
  have hexlen : (extract_sections pt text).length =
      (sortByAsc (fun x => x.2) (section_positions pt text)).length := by
    rw [hex, length_slice_sections]
  have hlen1 : 1 ≤ (sortByAsc (fun x => x.2)
      (section_positions pt text)).length := by
    rw [← hexlen]
    exact List.length_pos.mpr hne2
  rw [List.getLast?_eq_getElem?, hexlen, hex,
    slice_sections_getElem text _ _] at hlast
  cases hns : (sortByAsc (fun x => x.2)
      (section_positions pt text))[(sortByAsc (fun x => x.2)
        (section_positions pt text)).length - 1]? with
  | none =>
    rw [hns] at hlast
    cases hlast
  | some ns =>
    rw [hns, Option.map_some'] at hlast
    have hnone : (sortByAsc (fun x => x.2)
        (section_positions pt text))[(sortByAsc (fun x => x.2)
          (section_positions pt text)).length - 1 + 1]? = none := by
      rw [show (sortByAsc (fun x => x.2)
          (section_positions pt text)).length - 1 + 1 =
        (sortByAsc (fun x => x.2) (section_positions pt text)).length from
          by omega]
      exact List.getElem?_eq_none (le_refl _)
    rw [hnone] at hlast
    have hpair := (Option.some.injEq _ _ ▸ hlast : _ = (nm, txt))
    have htxt : txt = pyStrip (pySlice text ns.2
        (min (ns.2 + 50000) text.length)) := by
      have := congrArg Prod.snd hpair
      simpa using this.symm
    rw [htxt]
    refine le_trans (pyStrip_length_le _) ?_
    rw [length_pySlice]
    omega

/-- C8 counterexample: the claim says the section text *is* the slice of the
input between boundary positions, but the source stores the
whitespace-stripped slice; on `textC8` (whose business pattern matches at
position 1, the newline) the stored text drops the leading newline and so
differs from the slice. -/
theorem extract_sections_slicing_counterexample :
    (extract_sections ptC8 textC8).lookup ("business".data) =
      some (pyStrip (pySlice textC8 1 (min (1 + 50000) textC8.length))) ∧
    pyStrip (pySlice textC8 1 (min (1 + 50000) textC8.length)) ≠
      pySlice textC8 1 (min (1 + 50000) textC8.length) ∧
    (("business".data,
        pySlice textC8 1 (min (1 + 50000) textC8.length)) ∉
      extract_sections ptC8 textC8) := by decide

/-- Witness for C8's amended theorem at a concrete two-section document. -/
theorem extract_sections_slicing_witness :
    (extract_sections ptC8 textC8)[0]? =
      ((sortByAsc (fun x => x.2) (section_positions ptC8 textC8))[0]?).map
        (fun ns => (ns.1, pyStrip (pySlice textC8 ns.2
          (((sortByAsc (fun x => x.2)
              (section_positions ptC8 textC8))[0 + 1]?).elim
            (min (ns.2 + 50000) textC8.length) (fun q => q.2))))) :=
  (extract_sections_slicing ptC8 textC8 (by decide)).2.2.2.1 0

/-! ## Claim C2 -/

/-- C2 (amended): in the structured-index stage, the candidate set is exactly
the items whose lowercased filename ends in `.htm`/`.html`, whose lowercased
name does not contain `"index"`, and whose name's part before the first dot
does not contain the character `'R'` anywhere (not merely the
single-leading-letter-plus-digits viewer convention); among these candidates
the returned name is that of a candidate of maximal declared byte size (the
first such, by stability). -/
theorem get_filing_document_url_selects_largest (items : List IndexItem) :
    (∀ item, item ∈ items.filter htm_filter ↔ item ∈ items ∧
      ((".htm".data).isSuffixOf (pyLower item.name) = true ∨
        (".html".data).isSuffixOf (pyLower item.name) = true) ∧
      strContains (pyLower item.name) ("index".data) = false ∧
      (stem item.name).contains 'R' = false) ∧
    (get_filing_document_url_structured items = none ↔
      items.filter htm_filter = []) ∧
    (∀ nm, get_filing_document_url_structured items = some nm →
      ∃ it, it ∈ items.filter htm_filter ∧ it.name = nm ∧
        ∀ it2 ∈ items.filter htm_filter, it2.size ≤ it.size) := by
  refine ⟨?_, ?_, ?_⟩
  · intro item
    simp only [List.mem_filter, htm_filter, Bool.and_eq_true,
      Bool.or_eq_true, Bool.not_eq_true']
    tauto
  · constructor
    · intro h
      rcases hs : sortByDesc (fun x => x.size) (items.filter htm_filter)
        with _ | ⟨x, rest⟩
      · exact (sortByDesc_eq_nil _ _).mp hs
      · simp only [get_filing_document_url_structured] at h
        rw [hs] at h
        cases h
    · intro h
      simp only [get_filing_document_url_structured, h]
      rfl
  · intro nm h
    simp only [get_filing_document_url_structured] at h
    rcases hs : sortByDesc (fun x => x.size) (items.filter htm_filter)
      with _ | ⟨x, rest⟩
    · rw [hs] at h
      cases h
    · rw [hs] at h
      obtain ⟨hmem, hmax⟩ := sortByDesc_head_max (fun x => x.size) _ x rest hs
      injection h with hnm
      exact ⟨x, hmem, hnm, hmax⟩

/-- C2 counterexample: `"Report10K.htm"` (size 100) does not match the
auxiliary-viewer convention (one leading letter then digits), so under the
claim it is a candidate and, being the only item, would be returned; the
source's filter drops it because a capital `R` occurs in its stem, and the
structured stage returns nothing. -/
theorem get_filing_document_url_claim_counterexample :
    get_filing_document_url_structured itemsC2 = none ∧
    claimCandidates itemsC2 = itemsC2 ∧
    itemsC2 ≠ [] ∧
    auxViewerName ("Report10K.htm".data) = false ∧
    htm_filter ⟨"Report10K.htm".data, 100⟩ = false := by decide

/-- Witness for C2's amended theorem: among three candidates of sizes 10, 99
and 50, the returned item is the size-99 one. -/
theorem get_filing_document_url_selects_largest_witness :
    ∃ it, it ∈ itemsW.filter htm_filter ∧ it.name = "b.htm".data ∧
      ∀ it2 ∈ itemsW.filter htm_filter, it2.size ≤ it.size :=
  (get_filing_document_url_selects_largest itemsW).2.2 ("b.htm".data)
    (by decide)

/-! ## Claim C3 -/

/-- The pacing step always schedules the next start at least `d` after the
recorded timestamp (which is the previous request's start). -/
theorem nextRequestStart_ge (d last now : ℚ) :
    d ≤ nextRequestStart d last now - last := by
  unfold nextRequestStart
  split
  · linarith
  · linarith [not_lt.mp (by assumption : ¬ now - last < d)]

/-- The first request of a trace starts at least `d` after the incoming
timestamp. -/
theorem runTrace_head_start (d last : ℚ) (reqs : List ArchiveRequest) :
    ∀ p, (runTrace d last reqs).head? = some p → d ≤ p.1 - last := by
  cases reqs with
  | nil => intro p hp; cases hp
  | cons r rs =>
    intro p hp
    simp only [runTrace, List.head?_cons, Option.some.injEq] at hp
    rw [← hp]
    exact nextRequestStart_ge d last r.arrival

/-- C3 (amended): the shared last-request timestamp is recorded at the
*start* of each request (client.py 42 / 176), not at its end, and the ≥ `d`
spacing it enforces holds start-to-start for *sequentially issued* requests
(each pacing check running after the previous request recorded its start);
the guarantee is not unconditional: when two operations run their pacing
checks concurrently on the same client — a schedule the shipped driver
reaches by gathering the XBRL-facts fetch and the document-URL resolution
(main.py 136-139) — both read the same stale timestamp during the pacing
sleep and their requests start simultaneously, a start-to-start gap of 0. -/
theorem rate_limiter_start_to_start (d last : ℚ)
    (reqs : List ArchiveRequest) (nowA nowB : ℚ) :
    (∀ p, (runTrace d last reqs).head? = some p → d ≤ p.1 - last) ∧
    (runTrace d last reqs).Chain' (fun p q => d ≤ q.1 - p.1) ∧
    (nowA - last < d → nowB - last < d →
      (concurrentStarts d last nowA nowB).2 -
        (concurrentStarts d last nowA nowB).1 = 0) := by
  refine ⟨runTrace_head_start d last reqs, ?_, ?_⟩
  · induction reqs generalizing last with
    | nil => simp [runTrace]
    | cons r rs ih =>
      simp only [runTrace]
      rw [List.chain'_cons']
      refine ⟨?_, ih _⟩
      intro q hq
      have := runTrace_head_start d (nextRequestStart d last r.arrival) rs q
        (by simpa using hq)
      simpa using this
  · intro hA hB
    unfold concurrentStarts nextRequestStart
    rw [if_pos hA, if_pos hB]
    ring_nf

/-- C3 counterexample: with `d = 1`, a request arriving at time 0 that takes
5 time units starts at 1 and ends at 6; the next request arriving at 6 is
admitted immediately (elapsed-since-*start* is 5 ≥ 1), so the gap from the
end of the first request to the start of the second is 0 < d. -/
theorem rate_limiter_end_to_start_counterexample :
    runTrace 1 0 [⟨0, 5⟩, ⟨6, 0⟩] = [(1, 6), (6, 6)] ∧
    ¬ (1 ≤ (6 : ℚ) - 6) := by
  constructor
  · norm_num [runTrace, nextRequestStart]
  · norm_num

/-- Witness for C3's amended theorem at a concrete trace, including the
concurrent stale-read collision (`d = 1`, both checks within the pacing
window of the request started at 0). -/
theorem rate_limiter_start_to_start_witness :
    ((1 : ℚ) ≤ ((1 : ℚ), (6 : ℚ)).1 - 0) ∧
    (concurrentStarts 1 0 0 (1 / 2)).2 -
      (concurrentStarts 1 0 0 (1 / 2)).1 = 0 :=
  ⟨(rate_limiter_start_to_start 1 0 [⟨0, 5⟩, ⟨6, 0⟩] 0 (1 / 2)).1 (1, 6)
      (by norm_num [runTrace, nextRequestStart]),
   (rate_limiter_start_to_start 1 0 [⟨0, 5⟩, ⟨6, 0⟩] 0 (1 / 2)).2.2
      (by norm_num) (by norm_num)⟩

/-! ## Claim C4 -/

/-- One 429 attempt: sleep `2^(attempt+1)` and continue with the next
attempt (client.py 45-52). -/
theorem rate_limited_get_aux_429_step (outcomes : Nat → AttemptOutcome)
    (m a : Nat) (s : List Nat) (ha : a < m + 1)
    (ho : outcomes a = .status429) :
    rate_limited_get_aux outcomes m a s =
      rate_limited_get_aux outcomes m (a + 1) (s ++ [2 ^ (a + 1)]) := by
  conv_lhs => rw [rate_limited_get_aux.eq_def]
  rw [if_pos ha]
  simp only [ho]

/-- One erroring attempt below the retry ceiling: sleep `2^(attempt+1)` and
continue (client.py 57-74). -/
theorem rate_limited_get_aux_error_step (outcomes : Nat → AttemptOutcome)
    (m a : Nat) (s : List Nat) (ha : a < m)
    (he : isErrorOutcome (outcomes a)) :
    rate_limited_get_aux outcomes m a s =
      rate_limited_get_aux outcomes m (a + 1) (s ++ [2 ^ (a + 1)]) := by
  cases ho : outcomes a with
  | status429 => rw [ho] at he; exact he.elim
  | success b => rw [ho] at he; exact he.elim
  | httpError c =>
    conv_lhs => rw [rate_limited_get_aux.eq_def]
    rw [if_pos (show a < m + 1 from by omega)]
    simp only [ho]
    rw [if_pos ha]
  | transportError e =>
    conv_lhs => rw [rate_limited_get_aux.eq_def]
    rw [if_pos (show a < m + 1 from by omega)]
    simp only [ho]
    rw [if_pos ha]

/-- An erroring final attempt: the error is re-raised (client.py 66 / 76). -/
theorem rate_limited_get_aux_error_last (outcomes : Nat → AttemptOutcome)
    (m : Nat) (s : List Nat) (he : isErrorOutcome (outcomes m)) :
    rate_limited_get_aux outcomes m m s = (.fetchFailed (outcomes m), s) := by
  cases ho : outcomes m with
  | status429 => rw [ho] at he; exact he.elim
  | success b => rw [ho] at he; exact he.elim
  | httpError c =>
    conv_lhs => rw [rate_limited_get_aux.eq_def]
    rw [if_pos (show m < m + 1 from by omega)]
    simp only [ho]
    rw [if_neg (lt_irrefl m)]
  | transportError e =>
    conv_lhs => rw [rate_limited_get_aux.eq_def]
    rw [if_pos (show m < m + 1 from by omega)]
    simp only [ho]
    rw [if_neg (lt_irrefl m)]

/-- The loop runs out of attempts: the final `RuntimeError` (client.py 78). -/
theorem rate_limited_get_aux_done (outcomes : Nat → AttemptOutcome)
    (m a : Nat) (s : List Nat) (ha : ¬ a < m + 1) :
    rate_limited_get_aux outcomes m a s = (.rateLimitExceeded, s) := by
  conv_lhs => rw [rate_limited_get_aux.eq_def]
  rw [if_neg ha]

/-- C4: if every attempt of `_rate_limited_get` receives HTTP 429, it sleeps
`2^(attempt+1)` seconds after each of its `3 + 1` attempts (3 retries after
the first) and then fails with the final `RuntimeError` (the spec's
`RateLimitExceeded`); if instead every attempt fails with an HTTP error
status or transport-level error, the same backoff schedule is applied below
the ceiling and the *last* error is re-raised (the spec's `FetchFailed`), an
outcome distinct from `RateLimitExceeded`. -/
theorem rate_limited_get_retry_contract (outcomes : Nat → AttemptOutcome) :
    ((∀ i, i ≤ 3 → outcomes i = .status429) →
      rate_limited_get outcomes = (.rateLimitExceeded, [2, 4, 8, 16])) ∧
    ((∀ i, i ≤ 3 → isErrorOutcome (outcomes i)) →
      rate_limited_get outcomes = (.fetchFailed (outcomes 3), [2, 4, 8]) ∧
      ∀ o, FetchResult.fetchFailed o ≠ FetchResult.rateLimitExceeded) := by
  constructor
  · intro h
    unfold rate_limited_get
    rw [rate_limited_get_aux_429_step outcomes 3 0 [] (by norm_num)
        (h 0 (by norm_num)),
      rate_limited_get_aux_429_step outcomes 3 1 _ (by norm_num)
        (h 1 (by norm_num)),
      rate_limited_get_aux_429_step outcomes 3 2 _ (by norm_num)
        (h 2 (by norm_num)),
      rate_limited_get_aux_429_step outcomes 3 3 _ (by norm_num)
        (h 3 (by norm_num)),
      rate_limited_get_aux_done outcomes 3 4 _ (by norm_num)]
    norm_num
  · intro h
    refine ⟨?_, fun o hco => FetchResult.noConfusion hco⟩
    unfold rate_limited_get
    rw [rate_limited_get_aux_error_step outcomes 3 0 [] (by norm_num)
        (h 0 (by norm_num)),
      rate_limited_get_aux_error_step outcomes 3 1 _ (by norm_num)
        (h 1 (by norm_num)),
      rate_limited_get_aux_error_step outcomes 3 2 _ (by norm_num)
        (h 2 (by norm_num)),
      rate_limited_get_aux_error_last outcomes 3 _ (h 3 (by norm_num))]
    norm_num

/-- Witness for C4: all-429 runs exhaust the budget with backoffs 2, 4, 8,
16; an all-HTTP-500 run fails with the last error after backoffs 2, 4, 8. -/
theorem rate_limited_get_retry_contract_witness :
    rate_limited_get (fun _ => .status429) =
      (.rateLimitExceeded, [2, 4, 8, 16]) ∧
    rate_limited_get (fun _ => .httpError 500) =
      (.fetchFailed (.httpError 500), [2, 4, 8]) :=
  ⟨(rate_limited_get_retry_contract (fun _ => .status429)).1
      (fun _ _ => rfl),
   ((rate_limited_get_retry_contract (fun _ => .httpError 500)).2
      (fun _ _ => trivial)).1⟩

/-! ## Claim C5 -/

/-- One rate-limited attempt: sleep `2^(attempt+1)` and continue
(groq_client.py 111-117). -/
theorem analyze_section_aux_rl_step {J : Type} (loads : Str → Option J)
    (outcomes : Nat → GroqOutcome) (name : Str) (a : Nat) (s : List Nat)
    (ha : a < 3) (ho : outcomes a = .rateLimited) :
    analyze_section_aux loads outcomes name a s =
      analyze_section_aux loads outcomes name (a + 1) (s ++ [2 ^ (a + 1)]) := by
  conv_lhs => rw [analyze_section_aux.eq_def]
  rw [if_pos ha]
  simp only [ho]

/-- The loop runs out of attempts: `max_retries_exceeded`
(groq_client.py 128-132). -/
theorem analyze_section_aux_done {J : Type} (loads : Str → Option J)
    (outcomes : Nat → GroqOutcome) (name : Str) (a : Nat) (s : List Nat)
    (ha : ¬ a < 3) :
    analyze_section_aux loads outcomes name a s =
      (.maxRetriesExceeded name, s) := by
  conv_lhs => rw [analyze_section_aux.eq_def]
  rw [if_neg ha]

/-- A response whose JSON recovery succeeds: tagged success
(groq_client.py 94-99). -/
theorem analyze_section_aux_response_parsed {J : Type}
    (loads : Str → Option J) (outcomes : Nat → GroqOutcome) (name : Str)
    (a : Nat) (s : List Nat) (raw : Str) (v : J) (ha : a < 3)
    (ho : outcomes a = .response raw)
    (hp : parse_json_response loads raw = some v) :
    analyze_section_aux loads outcomes name a s = (.parsed v name, s) := by
  conv_lhs => rw [analyze_section_aux.eq_def]
  rw [if_pos ha]
  simp only [ho, hp]

/-- A response whose JSON recovery fails: `parse_failed` carrying the raw
text (groq_client.py 100-109). -/
theorem analyze_section_aux_response_failed {J : Type}
    (loads : Str → Option J) (outcomes : Nat → GroqOutcome) (name : Str)
    (a : Nat) (s : List Nat) (raw : Str) (ha : a < 3)
    (ho : outcomes a = .response raw)
    (hp : parse_json_response loads raw = none) :
    analyze_section_aux loads outcomes name a s =
      (.parseFailed raw name, s) := by
  conv_lhs => rw [analyze_section_aux.eq_def]
  rw [if_pos ha]
  simp only [ho, hp]

/-- C5 (amended): `analyze_section` makes at most 3 attempts in total — two
retries after the first, not three — sleeping `2^(attempt+1)` seconds after
each rate-limited attempt (so an all-rate-limited call sleeps 2, 4, 8) before
returning `max_retries_exceeded`; and a single rate-limited attempt followed
by a successfully parsed response succeeds with total wait exactly one
backoff interval, `[2]`. -/
theorem analyze_section_retry_contract {J : Type} (loads : Str → Option J)
    (outcomes : Nat → GroqOutcome) (section_name : Str)
    (hsec : section_name ∈ SECTION_PROMPT_KEYS) :
    ((∀ i, i < 3 → outcomes i = .rateLimited) →
      analyze_section loads outcomes section_name =
        (.maxRetriesExceeded section_name, [2, 4, 8])) ∧
    (∀ raw v, outcomes 0 = .rateLimited → outcomes 1 = .response raw →
      parse_json_response loads raw = some v →
      analyze_section loads outcomes section_name =
        (.parsed v section_name, [2])) := by
  have hentry : analyze_section loads outcomes section_name =
      analyze_section_aux loads outcomes section_name 0 [] := by
    unfold analyze_section
    rw [if_pos hsec]
  constructor
  · intro h
    rw [hentry,
      analyze_section_aux_rl_step loads outcomes section_name 0 []
        (by norm_num) (h 0 (by norm_num)),
      analyze_section_aux_rl_step loads outcomes section_name 1 _
        (by norm_num) (h 1 (by norm_num)),
      analyze_section_aux_rl_step loads outcomes section_name 2 _
        (by norm_num) (h 2 (by norm_num)),
      analyze_section_aux_done loads outcomes section_name 3 _
        (by norm_num)]
    norm_num
  · intro raw v h0 h1 hp
    rw [hentry,
      analyze_section_aux_rl_step loads outcomes section_name 0 []
        (by norm_num) h0,
      analyze_section_aux_response_parsed loads outcomes section_name 1 _
        raw v (by norm_num) h1 hp]
    norm_num

/-- C5 counterexample: the claim's "up to 3 retries" would make a fourth
attempt; with the endpoint rate-limiting attempts 0-2 and ready to answer a
parseable response on attempt 3, the source returns
`max_retries_exceeded` after only two retries (three attempts, sleeps
2, 4, 8) and never issues the attempt that would have succeeded. -/
theorem analyze_section_retry_counterexample :
    analyze_section loadsBrace outcomesC5 ("business".data) =
      (.maxRetriesExceeded ("business".data), [2, 4, 8]) ∧
    outcomesC5 3 = .response ['\x7b', 'X', '\x7d'] ∧
    parse_json_response loadsBrace ['\x7b', 'X', '\x7d'] = some () := by
  refine ⟨?_, by decide, by decide⟩
  have hentry : analyze_section loadsBrace outcomesC5 ("business".data) =
      analyze_section_aux loadsBrace outcomesC5 ("business".data) 0 [] := by
    unfold analyze_section
    rw [if_pos (by decide)]
  rw [hentry,
    analyze_section_aux_rl_step loadsBrace outcomesC5 ("business".data) 0 []
      (by norm_num) rfl,
    analyze_section_aux_rl_step loadsBrace outcomesC5 ("business".data) 1 _
      (by norm_num) rfl,
    analyze_section_aux_rl_step loadsBrace outcomesC5 ("business".data) 2 _
      (by norm_num) rfl,
    analyze_section_aux_done loadsBrace outcomesC5 ("business".data) 3 _
      (by norm_num)]
  norm_num

/-- Witness for C5's amended theorem: one 429 then a success gives a parsed
result after exactly one backoff interval. -/
theorem analyze_section_retry_contract_witness :
    analyze_section loadsBrace outcomesOneBackoff ("business".data) =
      (.parsed () ("business".data), [2]) :=
  (analyze_section_retry_contract loadsBrace outcomesOneBackoff
      ("business".data) (by decide)).2 ['\x7b', 'X', '\x7d'] () rfl rfl
    (by decide)

/-! ## Claim C6 -/

/-- C6: JSON recovery strips the Markdown fence (after `.strip()`) and
parses the remainder directly; on failure it parses the brace substring,
which is the *largest* substring of the cleaned text starting with `'\x7b'` and
ending with `'\x7d'`; and when both parses fail, `analyze_section` returns a
`parse_failed` result carrying the raw response text verbatim. -/
theorem parse_json_recovery {J : Type} (loads : Str → Option J) (raw : Str) :
    (∀ v, loads (stripFences (pyStrip raw)) = some v →
      parse_json_response loads raw = some v) ∧
    (∀ sub v, loads (stripFences (pyStrip raw)) = none →
      braceSubstr (stripFences (pyStrip raw)) = some sub →
      loads sub = some v → parse_json_response loads raw = some v) ∧
    (∀ sub, braceSubstr (stripFences (pyStrip raw)) = some sub →
      sub.head? = some '\x7b' ∧ sub.getLast? = some '\x7d' ∧
      ∀ a b, a < b → b ≤ (stripFences (pyStrip raw)).length →
        (pySlice (stripFences (pyStrip raw)) a b).head? = some '\x7b' →
        (pySlice (stripFences (pyStrip raw)) a b).getLast? = some '\x7d' →
        b - a ≤ sub.length) ∧
    (parse_json_response loads raw = none →
      ∀ (outcomes : Nat → GroqOutcome) (section_name : Str),
        section_name ∈ SECTION_PROMPT_KEYS → outcomes 0 = .response raw →
        analyze_section loads outcomes section_name =
          (.parseFailed raw section_name, [])) := by
  refine ⟨?_, ?_, ?_, ?_⟩
  · intro v hv
    unfold parse_json_response
    simp only [hv]
  · intro sub v hn hb hs
    unfold parse_json_response
    simp only [hn, hb, hs]
  · intro sub hb
    unfold braceSubstr at hb
    cases hf : firstIdx '\x7b' (stripFences (pyStrip raw)) with
    | none => rw [hf] at hb; cases hb
    | some i =>
      rw [hf] at hb
      cases hl : lastIdx '\x7d' (stripFences (pyStrip raw)) with
      | none => rw [hl] at hb; cases hb
      | some j =>
        rw [hl] at hb
        have hb' : (if i < j then
            some (pySlice (stripFences (pyStrip raw)) i (j + 1))
          else none) = some sub := hb
        by_cases hij : i < j
        · rw [if_pos hij] at hb'
          have hsub : sub = pySlice (stripFences (pyStrip raw)) i (j + 1) :=
            (Option.some.injEq _ _ ▸ hb').symm
          obtain ⟨hgi, hmini⟩ := firstIdx_spec '\x7b' _ i hf
          obtain ⟨hgj, hmaxj⟩ := lastIdx_spec '\x7d' _ j hl
          have hjlen : j < (stripFences (pyStrip raw)).length :=
            (List.getElem?_eq_some.mp hgj).1
          have hsublen : sub.length = j + 1 - i := by
            rw [hsub, length_pySlice]
            omega
          refine ⟨?_, ?_, ?_⟩
          · rw [hsub, pySlice_head _ _ _ (by omega)]
            exact hgi
          · rw [hsub, pySlice_getLast _ _ _ (by omega) (by omega)]
            simpa using hgj
          · intro a b hab hble hh hlg
            rw [pySlice_head _ _ _ hab] at hh
            rw [pySlice_getLast _ _ _ hab hble] at hlg
            have h1 := hmini a hh
            have h2 := hmaxj (b - 1) hlg
            omega
        · rw [if_neg hij] at hb'
          cases hb'
  · intro hnone outcomes section_name hkeys h0
    unfold analyze_section
    rw [if_pos hkeys]
    exact analyze_section_aux_response_failed loads outcomes section_name 0 []
      raw (by norm_num) h0 hnone

/-- Witness for C6: prose with one embedded object is recovered through the
brace fallback; text with no object yields `parse_failed` carrying the raw
text. -/
theorem parse_json_recovery_witness :
    parse_json_response loadsBrace proseWithJson = some () ∧
    analyze_section loadsBrace (outcomesRespond junkText)
      ("business".data) =
      (.parseFailed junkText ("business".data), []) := by
  constructor
  · exact (parse_json_recovery loadsBrace proseWithJson).2.1
      ['\x7b', 'X', '\x7d'] () (by decide) (by decide) (by decide)
  · exact (parse_json_recovery loadsBrace junkText).2.2.2 (by decide)
      (outcomesRespond junkText) ("business".data) (by decide) rfl

/-! ## Claim C9 -/

/-- C9: with `seen = \x7bA\x7d`, a poll over a feed whose every entry carries the
already-seen accession A returns no events and leaves the seen set
unchanged; a poll over a feed of A followed by a new accession B whose CIK
maps to a watchlist ticker returns exactly one event — for B, with the
watchlist ticker and CIK — and B is afterwards in the seen set. -/
theorem poll_once_dedup_and_watchlist (wl : List (Str × Str))
    (seen : List Str) (A B : Str) (eA eB : FeedEntry)
    (cikB tickerB : Str) (entries : List FeedEntry) :
    ((∀ e ∈ entries, findAccession (e.link ++ [' '] ++ e.summary) = some A) →
      A ∈ seen → poll_once wl seen entries = ([], seen)) ∧
    (findAccession (eA.link ++ [' '] ++ eA.summary) = some A →
      findAccession (eB.link ++ [' '] ++ eB.summary) = some B →
      B ≠ A →
      findCik eB = some cikB →
      tickerFor wl cikB = some tickerB →
      poll_once wl [A] [eA, eB] =
        ([{ ticker := tickerB, cik := (wl.lookup tickerB).getD [],
            accession := B, title := eB.title }], [A, B])) := by
  constructor
  · induction entries with
    | nil => intro _ _; rfl
    | cons e rest ih =>
      intro hall hseen
      unfold poll_once
      simp only [poll_once_loop, hall e (List.mem_cons_self e rest)]
      rw [if_pos hseen]
      exact ih (fun e' he' => hall e' (List.mem_cons_of_mem e he')) hseen
  · intro hA hB hBA hcik hticker
    unfold poll_once
    simp only [poll_once_loop, hA, hB, hcik, hticker]
    rw [if_pos (List.mem_singleton.mpr rfl)]
    rw [if_neg (fun hmem => hBA (List.mem_singleton.mp hmem))]
    rfl

/-- Witness for C9 at a concrete watchlist and feed: only the new accession
produces an event, for the right ticker, and ends up in the seen set. -/
theorem poll_once_dedup_and_watchlist_witness :
    poll_once wlW [accA] [] = ([], [accA]) ∧
    poll_once wlW [accA] [entryA, entryB] =
      ([{ ticker := "AAPL".data, cik := "320193".data,
          accession := accB, title := entryB.title }], [accA, accB]) ∧
    accB ∈ [accA, accB] := by
  refine ⟨?_, ?_, by decide⟩
  · exact (poll_once_dedup_and_watchlist wlW [accA] accA accB entryA entryB
      ("320193".data) ("AAPL".data) []).1 (fun e he => absurd he
        (List.not_mem_nil e)) (List.mem_singleton.mpr rfl)
  · have h := (poll_once_dedup_and_watchlist wlW [accA] accA accB entryA
      entryB ("320193".data) ("AAPL".data) []).2 (by decide) (by decide)
      (by decide) (by decide) (by decide)
    rw [h]
    decide

/-! ## Claim C10 -/

/-- If every concept in the priority list has an empty annual filter, the
result is empty (client.py 259). -/
theorem extract_annual_values_none (us_gaap : List (String × List XbrlEntry)) :
    ∀ concepts : List String, (∀ c ∈ concepts, annualOf us_gaap c = []) →
      extract_annual_values us_gaap concepts = [] := by
  intro concepts
  induction concepts with
  | nil => intro _; rfl
  | cons c rest ih =>
    intro h
    simp only [extract_annual_values]
    rw [if_pos (by
      rw [h c (List.mem_cons_self c rest)]
      rfl)]
    exact ih (fun c' hc' => h c' (List.mem_cons_of_mem c hc'))

/-- The first concept whose annual filter is non-empty supplies the series
(client.py 229-257). -/
theorem extract_annual_values_first (us_gaap : List (String × List XbrlEntry)) :
    ∀ (pre : List String) (c : String) (post : List String),
      (∀ c' ∈ pre, annualOf us_gaap c' = []) →
      annualOf us_gaap c ≠ [] →
      extract_annual_values us_gaap (pre ++ c :: post) =
        dedup_take3 (sortByDesc (fun v => v.endDate) (annualOf us_gaap c))
          [] [] := by
  intro pre
  induction pre with
  | nil =>
    intro c post _ hc
    simp only [List.nil_append, extract_annual_values]
    rw [if_neg (fun h' => hc (List.isEmpty_iff.mp h'))]
  | cons p ps ih =>
    intro c post hpre hc
    simp only [List.cons_append, extract_annual_values]
    rw [if_pos (by
      rw [hpre p (List.mem_cons_self p ps)]
      rfl)]
    exact ih c post (fun c' hc' => hpre c' (List.mem_cons_of_mem p hc')) hc

/-- C10: the extracted annual-value series comes from the first concept in
the priority list that has at least one USD entry with form `10-K` and fp
`FY` (empty if there is none), contains at most three entries, has pairwise
distinct period-end dates, and is ordered by period-end date descending. -/
theorem extract_annual_values_contract
    (us_gaap : List (String × List XbrlEntry)) (concepts : List String) :
    (extract_annual_values us_gaap concepts).length ≤ 3 ∧
    (extract_annual_values us_gaap concepts).Pairwise
      (fun a b => a.period_end ≠ b.period_end) ∧
    (extract_annual_values us_gaap concepts).Pairwise
      (fun a b => b.period_end ≤ a.period_end) ∧
    ((∀ c ∈ concepts, annualOf us_gaap c = []) →
      extract_annual_values us_gaap concepts = []) ∧
    (∀ pre c post, concepts = pre ++ c :: post →
      (∀ c' ∈ pre, annualOf us_gaap c' = []) →
      annualOf us_gaap c ≠ [] →
      extract_annual_values us_gaap concepts =
        dedup_take3 (sortByDesc (fun v => v.endDate) (annualOf us_gaap c))
          [] []) := by
  have hprops : ∀ cs : List String,
      (extract_annual_values us_gaap cs).length ≤ 3 ∧
      (extract_annual_values us_gaap cs).Pairwise
        (fun a b => a.period_end ≠ b.period_end) ∧
      (extract_annual_values us_gaap cs).Pairwise
        (fun a b => b.period_end ≤ a.period_end) := by
    intro cs
    induction cs with
    | nil => simp [extract_annual_values]
    | cons c rest ih =>
      by_cases hc : (annualOf us_gaap c).isEmpty
      · simpa only [extract_annual_values, hc, if_true] using ih
      · simp only [extract_annual_values]
        rw [if_neg (by simpa using hc)]
        refine dedup_take3_invariant _ [] [] (by norm_num)
          (fun a ha => absurd ha (List.not_mem_nil a))
          (by simp) (by simp) ?_
          (fun a ha => absurd ha (List.not_mem_nil a))
        simpa using pairwise_sortByDesc (fun v : XbrlEntry => v.endDate)
          (annualOf us_gaap c)
  refine ⟨(hprops concepts).1, (hprops concepts).2.1, (hprops concepts).2.2,
    extract_annual_values_none us_gaap concepts, ?_⟩
  intro pre c post hcat hpre hc
  rw [hcat]
  exact extract_annual_values_first us_gaap pre c post hpre hc

/-- Witness for C10 at a concrete facts object: the first concept has no
annual entry, so the second supplies the series — three entries, one
duplicate period-end collapsed, most recent first. -/
theorem extract_annual_values_contract_witness :
    extract_annual_values usGaapW ["Revenues", "SalesRevenueNet"] =
      [⟨"2024-12-31".data, some 30, some 2024⟩,
       ⟨"2023-12-31".data, some 20, some 2023⟩,
       ⟨"2022-12-31".data, some 10, some 2022⟩] ∧
    (extract_annual_values usGaapW ["Revenues", "SalesRevenueNet"]).length ≤
      3 := by
  refine ⟨?_, (extract_annual_values_contract usGaapW _).1⟩
  have h := (extract_annual_values_contract usGaapW
      ["Revenues", "SalesRevenueNet"]).2.2.2.2 ["Revenues"]
      ("SalesRevenueNet") [] rfl ?_ ?_
  · rw [h]
    decide
  · intro c' hc'
    rw [List.mem_singleton.mp hc']
    decide
  · decide

end Sensybull
